import Mathlib

/-!
Verification of the pg-basic front end: the line tokenizer (src/tokenizer.js)
and the recursive-descent statement parser (src/parser.js, provided unnamed).
The JavaScript is embedded shallowly: source lines are lists of characters,
regex-driven matchers become explicit character-list functions, the tokenizer
and parser become functions into `Except JsError`, and the mutable token
cursor becomes an explicit `TokState` value threaded through the parser.
Recursions that are while-loops in the source are written structurally on a
fuel argument chosen large enough (at least the remaining input size) that
the fuel-exhausted branch is unreachable; those branches model only the
possibility of JavaScript stack exhaustion.
-/

namespace PgBasic

/-! ## Characters

`upper` models `String.prototype.toUpperCase` on the ASCII letters (the only
characters the grammar's case-insensitive classes can match). `isSpace`
models the regex class `\s` on the whitespace characters that can occur in a
source line; `isDigit` models `\d` and `isAlpha` models `[a-z]` under the
`i` flag. -/

def upperPairs : List (Char × Char) :=
  [('a', 'A'), ('b', 'B'), ('c', 'C'), ('d', 'D'), ('e', 'E'), ('f', 'F'),
   ('g', 'G'), ('h', 'H'), ('i', 'I'), ('j', 'J'), ('k', 'K'), ('l', 'L'),
   ('m', 'M'), ('n', 'N'), ('o', 'O'), ('p', 'P'), ('q', 'Q'), ('r', 'R'),
   ('s', 'S'), ('t', 'T'), ('u', 'U'), ('v', 'V'), ('w', 'W'), ('x', 'X'),
   ('y', 'Y'), ('z', 'Z')]

def upper (c : Char) : Char :=
  match upperPairs.find? (fun p => p.1 == c) with
  | some p => p.2
  | none => c

def isSpace (c : Char) : Bool :=
  c == ' ' || c == '\t' || c == '\n' || c == '\x0d' ||
  c == Char.ofNat 11 || c == Char.ofNat 12 || c == Char.ofNat 160

def isDigit (c : Char) : Bool := '0' ≤ c && c ≤ '9'

def isAlpha (c : Char) : Bool := ('a' ≤ c && c ≤ 'z') || ('A' ≤ c && c ≤ 'Z')

/-- Length of the leading whitespace run: the characters the trailing `\s*`
of each token regex silently consumes. -/
def wsCount (s : List Char) : Nat := (s.takeWhile isSpace).length

/-- The value `parseInt` produces on a run of decimal digits. -/
def natOfDigits (ds : List Char) : Nat :=
  ds.foldl (fun a c => 10 * a + (c.toNat - 48)) 0

/-- A single-quote character, written via an escape for the error-message
strings that quote the offending input. -/
def sq : String := "'"

/-! ## Tokens -/

/-- The closed token-kind enumeration (`Token.type` strings in the source).
The source spells the variable kind `variable`, which is a reserved word in
Lean, so the constructor is named `var`; `typeName` restores the source
spelling for error messages. -/
inductive TokType where
  | lineno | keyword | comment | string | number | var
  | function | constant | operation | logic | linemod | eof
deriving DecidableEq, Repr

def typeName : TokType → String
  | .lineno => "lineno"
  | .keyword => "keyword"
  | .comment => "comment"
  | .string => "string"
  | .number => "number"
  | .var => "variable"
  | .function => "function"
  | .constant => "constant"
  | .operation => "operation"
  | .logic => "logic"
  | .linemod => "linemod"
  | .eof => "eof"

/-- A token's `lexeme` is a JavaScript string or a JavaScript number. The
only numeric lexeme whose numeric identity the front end inspects is the
line number (`getLineNo` checks `typeof === 'number'`), so line numbers are
carried as `num`; numeric literals matched by `NUM` are carried as `str` of
their matched text, since the front end never computes with them (the
`parseFloat` decoding is irrelevant to tokenization and parsing, and its
`isNaN` guard is unreachable because `\d+(\.\d+)?` always parses). -/
inductive Lexeme where
  | str (s : String)
  | num (n : Nat)
deriving DecidableEq, Repr

/-- What JavaScript string interpolation prints for a lexeme. -/
def lexStr : Lexeme → String
  | .str s => s
  | .num n => toString n

structure Token where
  type : TokType
  lexeme : Lexeme
deriving DecidableEq, Repr

/-- The shared `eof` sentinel token (`new Token('eof', '')`). -/
def eofTok : Token := ⟨.eof, .str ""⟩

/-- `Tokenizer.expressionTypes`: the token kinds an expression may contain. -/
def expressionTypes : List TokType :=
  [.string, .function, .operation, .number, .var, .logic, .constant]

/-- The `KEYWORDS` array, in source order. -/
def KEYWORDS : List String :=
  ["IF", "THEN", "ELSE", "FOR", "ON", "TO", "STEP", "GOTO", "GOSUB",
   "RETURN", "NEXT", "INPUT", "LET", "CLC", "CLT", "CLS", "END", "PRINT",
   "PLOT", "DRAW", "UNDRAW", "ARRAY", "DIM", "DATA", "READ", "REM",
   "PAUSE", "STOP"]

/-- The `CONSTANTS` array. -/
def CONSTANTS : List String := ["LEVEL", "PI"]

/-- The alternatives of the `LOGIC` regex. -/
def logicWords : List String := ["AND", "OR"]

/-- Modelled from the spec: the `FUN` regex is built from the keys of the
external function-name registry (`require('./functions')`), a module not
among the provided sources; the spec treats it as an opaque name set
consulted only for recognition, so it is embedded as an abstract list,
instantiated empty because no claim depends on a particular function name.
The case-insensitivity lemmas below are proved for every name list. -/
def Functions : List String := []

/-! ## Regex matchers

Each matcher models one of the anchored regexes of the tokenizer. A matcher
returns the captured lexeme together with the total number of characters the
whole match `m[0]` consumed (captured text plus the trailing `\s*` run), or
`none` when the regex does not match at the current position. -/

/-- Case-insensitive first-match over an ordered alternation of names
(the `KEY`, `FUN`, `CONST` and `LOGIC` regexes): the first name in the list
whose letters match the input prefix up to case wins, and the returned
lexeme is the name itself, which is the uppercased form of the matched text. -/
def matchNameCI (names : List String) (s : List Char) : Option (String × Nat) :=
  match names with
  | [] => none
  | k :: rest =>
    if (s.take k.data.length).map upper = k.data then
      some (k, k.data.length + wsCount (s.drop k.data.length))
    else matchNameCI rest s

/-- The `VAR` regex `^([a-z][0-9]*)\$?\s*` (case-insensitive): the captured
group excludes the optional `$` suffix, and the lexeme is uppercased. -/
def matchVar (s : List Char) : Option (String × Nat) :=
  match s with
  | [] => none
  | c :: cs =>
    if isAlpha c then
      let ds := cs.takeWhile isDigit
      let rest := cs.drop ds.length
      let dollar : Nat := if rest.head? = some '$' then 1 else 0
      some (String.mk ((c :: ds).map upper),
            1 + ds.length + dollar + wsCount (rest.drop dollar))
    else none

/-- The `NUM` regex `^(\d+(\.\d+)?)\s*`; the lexeme is the matched text. -/
def matchNum (s : List Char) : Option (String × Nat) :=
  let ds := s.takeWhile isDigit
  if ds.isEmpty then none
  else
    let rest := s.drop ds.length
    if rest.head? = some '.' then
      let fs := rest.tail.takeWhile isDigit
      if fs.isEmpty then
        some (String.mk ds, ds.length + wsCount rest)
      else
        some (String.mk (ds ++ '.' :: fs),
              ds.length + 1 + fs.length + wsCount (rest.tail.drop fs.length))
    else some (String.mk ds, ds.length + wsCount rest)

/-- The single-character alternatives of the `OP` regex. -/
def opChars : List Char :=
  [',', '+', '-', '*', '/', '%', '=', '<', '>', '(', ')', ']', '[']

/-- The `OP` regex: the two-character comparison operators are alternatives
before their one-character prefixes. -/
def matchOp (s : List Char) : Option (String × Nat) :=
  match s with
  | [] => none
  | c :: r =>
    if c = '<' ∧ r.head? = some '>' then some ("<>", 2 + wsCount r.tail)
    else if c = '>' ∧ r.head? = some '=' then some (">=", 2 + wsCount r.tail)
    else if c = '<' ∧ r.head? = some '=' then some ("<=", 2 + wsCount r.tail)
    else if opChars.contains c then some (String.mk [c], 1 + wsCount r)
    else none

/-- Body of the `QUOTE` regex after the opening quote: a greedy run of
`(\\.|[^"\\])*` followed by the closing quote. Returns the body characters
and the count consumed including the closing quote. The greedy scan is
exact: no element of the star can begin with `"`, so regex backtracking
can never succeed where the greedy scan fails. -/
def scanQB : List Char → Option (List Char × Nat)
  | [] => none
  | c :: r =>
    if c = '"' then some ([], 1)
    else if c = '\\' then
      match r with
      | [] => none
      | c2 :: r2 =>
        if c2 = '\n' then none
        else (scanQB r2).map (fun p => (c :: c2 :: p.1, p.2 + 2))
    else (scanQB r).map (fun p => (c :: p.1, p.2 + 1))

/-- The `LINE` regex `^\s*(\d+)\s*`: returns `parseInt` of the digit run and
the count consumed. -/
def matchLine (s : List Char) : Option (Nat × Nat) :=
  let w0 := wsCount s
  let ds := (s.drop w0).takeWhile isDigit
  if ds.isEmpty then none
  else some (natOfDigits ds,
             w0 + ds.length + wsCount (s.drop (w0 + ds.length)))

/-! ## Errors

`JsError.parseError` is the repository's `ParseError` class carrying a line
number and a message; `JsError.error` is a plain JavaScript `Error` carrying
only a message; `JsError.typeError` is a runtime `TypeError`. -/

inductive JsError where
  | parseError (lineNumber : Int) (message : String)
  | error (message : String)
  | typeError (message : String)
deriving DecidableEq, Repr

/-! ## The eat methods

Each `eatX` method of the tokenizer tries its regex against the remaining
statement text; on success it pushes tokens and the main loop slices off
`m[0].length` characters. An eater returns the pushed tokens and the count
consumed. `eatKeyword` additionally implements the `REM` special case: the
whole remaining line becomes one comment token and the method returns the
entire remaining text, so the loop consumes everything. -/

def eatKeyword (s : List Char) : Option (List Token × Nat) :=
  match matchNameCI KEYWORDS s with
  | none => none
  | some (k, n) =>
    if k = "REM" then
      some ([⟨.keyword, .str k⟩, ⟨.comment, .str (String.mk (s.drop n))⟩], s.length)
    else some ([⟨.keyword, .str k⟩], n)

def eatQuote (s : List Char) : Option (List Token × Nat) :=
  match s with
  | [] => none
  | c :: r =>
    if c = '"' then
      match scanQB r with
      | none => none
      | some (body, n) =>
        some ([⟨.string, .str ("\"" ++ String.mk body ++ "\"")⟩],
              1 + n + wsCount (r.drop n))
    else none

def eatLogic (s : List Char) : Option (List Token × Nat) :=
  (matchNameCI logicWords s).map (fun p => ([⟨.logic, .str p.1⟩], p.2))

def eatFunction (s : List Char) : Option (List Token × Nat) :=
  (matchNameCI Functions s).map (fun p => ([⟨.function, .str p.1⟩], p.2))

def eatConstant (s : List Char) : Option (List Token × Nat) :=
  (matchNameCI CONSTANTS s).map (fun p => ([⟨.constant, .str p.1⟩], p.2))

def eatVariable (s : List Char) : Option (List Token × Nat) :=
  (matchVar s).map (fun p => ([⟨.var, .str p.1⟩], p.2))

def eatNumber (s : List Char) : Option (List Token × Nat) :=
  (matchNum s).map (fun p => ([⟨.number, .str p.1⟩], p.2))

def eatOperation (s : List Char) : Option (List Token × Nat) :=
  (matchOp s).map (fun p => ([⟨.operation, .str p.1⟩], p.2))

/-- `eatLineMod`: the `LINEMOD` regex `^(;)\s*`. The source wraps the
captured lexeme in literal double quotes (`new Token('linemod', `"${m[1]}"`)`),
so the lexeme is the three-character string `";"`. -/
def eatLineMod (s : List Char) : Option (List Token × Nat) :=
  match s with
  | [] => none
  | c :: r =>
    if c = ';' then some ([⟨.linemod, .str "\";\""⟩], 1 + wsCount r) else none

/-- The short-circuiting `||` of the tokenize loop. -/
def firstSome (a b : Option (List Token × Nat)) : Option (List Token × Nat) :=
  match a with
  | some r => some r
  | none => b

/-- One step of the tokenize loop: the eat methods tried in source order
(`eatKeyword || eatQuote || eatLogic || eatFunction || eatConstant ||
eatVariable || eatNumber || eatOperation || eatLineMod`). -/
def eatAny (s : List Char) : Option (List Token × Nat) :=
  firstSome (eatKeyword s) (firstSome (eatQuote s) (firstSome (eatLogic s)
    (firstSome (eatFunction s) (firstSome (eatConstant s)
    (firstSome (eatVariable s) (firstSome (eatNumber s)
    (firstSome (eatOperation s) (eatLineMod s))))))))

/-- The `while (this.stmnt.length)` loop of `tokenize`, structural on a fuel
argument. Every successful eat consumes at least one character, so with fuel
at least the input length the fuel-exhausted branch is unreachable (it
models only JavaScript stack/liveness limits and never fires below). -/
def scanAux (lineno : Nat) : Nat → List Char → Except JsError (List Token)
  | _, [] => .ok []
  | 0, _ :: _ => .error (.parseError lineno "scanner fuel exhausted")
  | fuel + 1, c :: cs =>
    match eatAny (c :: cs) with
    | none =>
      .error (.parseError lineno
        ("Invalid syntax near: " ++ sq ++ String.mk (c :: cs) ++ sq))
    | some (ts, n) =>
      match scanAux lineno fuel ((c :: cs).drop n) with
      | .error e => .error e
      | .ok rest => .ok (ts ++ rest)

def scanTokens (lineno : Nat) (s : List Char) : Except JsError (List Token) :=
  scanAux lineno s.length s

/-- `Tokenizer.tokenize`: match the mandatory leading line number (failing
with `this.lineno` still at its initial `-1`), push the line-number token,
then run the eat loop over the rest. Returns the parsed line number
(`this.lineno`) together with the token array. -/
def tokenize (line : String) : Except JsError (Nat × List Token) :=
  match matchLine line.data with
  | none => .error (.parseError (-1) "Every line must start with a line number")
  | some (n, cnt) =>
    match scanTokens n (line.data.drop cnt) with
    | .error e => .error e
    | .ok ts => .ok (n, ⟨.lineno, .num n⟩ :: ts)

/-! ## The token cursor

`TokState` is the tokenizer object as the parser sees it: the token array,
the cursor `index`, the `tokenized` flag checked by `assertTokenized`, and
`this.lineno` (used only in the assert's error message). `peek` and `next`
return the shared `eof` sentinel at or past the end of the array; `next`
does not advance there. The source's `peek() != Tokenizer.eof` comparisons
are object-identity tests against the sentinel, which in this model is the
cursor-bound test `tokens.length ≤ index`, since `tokenize` never stores an
eof-typed token in the array. -/

structure TokState where
  tokens : List Token
  index : Nat
  tokenized : Bool
  lineno : Int
deriving DecidableEq, Repr

def assertTokenized (st : TokState) : Except JsError Unit :=
  if st.tokenized then .ok () else .error (.parseError st.lineno "Call tokenize() first")

def peek (st : TokState) (n : Nat) : Except JsError Token := do
  assertTokenized st
  if st.tokens.length ≤ st.index + n then .ok eofTok
  else .ok (st.tokens.getD (st.index + n) eofTok)

def next (st : TokState) : Except JsError (Token × TokState) := do
  assertTokenized st
  if st.tokens.length ≤ st.index then .ok (eofTok, st)
  else .ok (st.tokens.getD st.index eofTok, { st with index := st.index + 1 })

/-- Repeated `next` calls: `nextTimes k` performs `k + 1` consecutive calls
and returns the last result. -/
def nextTimes : Nat → TokState → Except JsError (Token × TokState)
  | 0, st => next st
  | k + 1, st => do
    let (_, st') ← next st
    nextTimes k st'

/-! ## Statement nodes

The node classes from `./nodes` are plain data carriers; the expression
translator `exprToJS` from `./expr` is not among the provided sources and
the spec treats its result as an opaque evaluable representation, so `Expr`
wraps the isolated token slice unchanged. -/

structure Expr where
  tokens : List Token
deriving DecidableEq, Repr

/-- Modelled from the spec: `exprToJS` (src/expr.js, the expression
translator) is outside the provided sources; per the spec it is a pure
function of the already-isolated token slice, so it is embedded as the
slice itself. -/
def exprToJS (ts : List Token) : Expr := ⟨ts⟩

structure Variable where
  lineno : Nat
  name : Lexeme
  subscript : Option Expr
deriving DecidableEq, Repr

inductive Node where
  | PRINT (lineno : Nat) (expr : Expr) (linemod : Bool)
  | LET (lineno : Nat) (variable' : Variable) (expr : Expr)
  | REM (lineno : Nat) (comment : String)
  | PAUSE (lineno : Nat) (expr : Expr)
  | INPUT (lineno : Nat) (expr : Expr) (variable' : Variable)
  | FOR (lineno : Nat) (variable' : Variable) (frm : Expr) (to_ : Expr) (step : Option Expr)
  | NEXT (lineno : Nat) (variable' : Variable)
  | GOTO (lineno : Nat) (expr : Expr)
  | END (lineno : Nat)
  | IF (lineno : Nat) (condition : Expr) (then_ : Node) (else_ : Option Node)

/-! ## The statement parser

Each `Parser` method becomes a function threading the `TokState` cursor.
`lineno` is the `Parser` constructor argument (the line number extracted by
`getLineNo`), used for the nodes it builds. -/

/-- The free function `assertType(token, expected, value = null)`. -/
def assertType (t : Token) (expected : TokType) (value : Option Lexeme) :
    Except JsError Unit :=
  if t.type ≠ expected then
    .error (.error ("Expect token of type " ++ typeName expected ++
                    " but got " ++ typeName t.type))
  else
    match value with
    | some v =>
      if t.lexeme ≠ v then
        .error (.error ("Expected token value to be " ++ lexStr v ++
                        " but got " ++ lexStr t.lexeme))
      else .ok ()
    | none => .ok ()

/-- The free function `getLineNo(token)`. -/
def getLineNo (t : Token) : Except JsError Nat := do
  assertType t .lineno none
  match t.lexeme with
  | .num n => .ok n
  | .str _ => .error (.error "lineno should be a number")

/-- `Parser.acceptKeyword(keyword)`. The `keyword` argument is accepted for
fidelity with the source signature but — exactly as in the source — never
read: any token of type `keyword` is accepted and consumed. -/
def acceptKeyword (_keyword : String) (st : TokState) :
    Except JsError (Option Token × TokState) := do
  let p ← peek st 0
  if p.type = .keyword then
    let (t, st) ← next st
    .ok (some t, st)
  else .ok (none, st)

/-- `Parser.expectKeyword(keyword)`. -/
def expectKeyword (keyword : String) (st : TokState) :
    Except JsError (Lexeme × TokState) := do
  let (t?, st) ← acceptKeyword keyword st
  match t? with
  | none => do
    let p ← peek st 0
    .error (.error ("Expected " ++ keyword ++ " but got " ++ lexStr p.lexeme))
  | some t => .ok (t.lexeme, st)

/-- `Parser.expectComment()`. -/
def expectComment (st : TokState) : Except JsError (String × TokState) := do
  let (t, st) ← next st
  if t.type = .comment then do
    let (t2, st) ← next st
    assertType t2 .eof none
    .ok (lexStr t.lexeme, st)
  else do
    assertType t .eof none
    .ok ("", st)

/-- `Parser.expectOperation(op)`. -/
def expectOperation (op : String) (st : TokState) :
    Except JsError (Lexeme × TokState) := do
  let (t, st) ← next st
  assertType t .operation none
  if t.lexeme ≠ .str op then .error (.error ("Expected operation " ++ op))
  else .ok (t.lexeme, st)

/-- The `while` loop of `Parser.expectExpr()`, structural on fuel (each
iteration consumes one token, so fuel `tokens.length + 1` never runs out).
The loop collects tokens of expression-compatible kinds, stopping at the
eof sentinel, at a non-expression token kind, or at a closing bracket or
parenthesis — the `brackets === 0` guard always holds because `brackets`
is declared `const`: the loop can never have incremented it. For the same
reason, consuming an opening bracket or parenthesis reaches `brackets++`,
which in JavaScript throws `TypeError: Assignment to constant variable.`;
the decrement branch (which tests `']'` twice and never `')'`) is
unreachable because a `']'` already breaks the loop at depth zero. -/
def expectExprLoop : Nat → TokState → List Token →
    Except JsError (List Token × TokState)
  | 0, _, _ => .error (.error "Maximum call stack size exceeded")
  | fuel + 1, st, acc => do
    assertTokenized st
    if st.tokens.length ≤ st.index then .ok (acc.reverse, st)
    else
      let t := st.tokens.getD st.index eofTok
      if t.type ∉ expressionTypes then .ok (acc.reverse, st)
      else if t.lexeme = .str "]" ∨ t.lexeme = .str ")" then .ok (acc.reverse, st)
      else if t.lexeme = .str "[" ∨ t.lexeme = .str "(" then
        .error (.typeError "Assignment to constant variable.")
      else expectExprLoop fuel { st with index := st.index + 1 } (t :: acc)

/-- `Parser.expectExpr()`. -/
def expectExpr (st : TokState) : Except JsError (Expr × TokState) := do
  let (expr, st) ← expectExprLoop (st.tokens.length + 1) st []
  if expr.isEmpty then .error (.error "Expected expression")
  else .ok (exprToJS expr, st)

/-- `Parser.acceptLineMod()`. -/
def acceptLineMod (st : TokState) : Except JsError (Bool × TokState) := do
  let p ← peek st 0
  if p.type = .linemod then
    let (_, st) ← next st
    .ok (true, st)
  else .ok (false, st)

/-- `Parser.expectLineMod()`. -/
def expectLineMod (st : TokState) : Except JsError (Bool × TokState) := do
  let (b, st) ← acceptLineMod st
  if b then .ok (true, st) else .error (.error "Expected ;")

/-- `Parser.acceptSubscript()`. -/
def acceptSubscript (st : TokState) : Except JsError (Option Expr × TokState) := do
  let p ← peek st 0
  if p.lexeme ≠ .str "[" then .ok (none, st)
  else do
    let (t1, st) ← next st
    assertType t1 .operation (some (.str "["))
    let (e, st) ← expectExpr st
    let (t2, st) ← next st
    assertType t2 .operation (some (.str "]"))
    .ok (some e, st)

/-- `Parser.expectVariable()`. -/
def expectVariable (lineno : Nat) (st : TokState) :
    Except JsError (Variable × TokState) := do
  let (t, st) ← next st
  assertType t .var none
  let (sub, st) ← acceptSubscript st
  .ok (⟨lineno, t.lexeme, sub⟩, st)

/-- `Parser.parse()`: one leading keyword token dispatched over the ten
statement productions; the `IF` production recurses. The recursion is
structural on fuel; `parseLine` passes `tokens.length + 1`, which cannot
run out because every recursive call strictly consumes tokens first (the
zero-fuel branch models only JavaScript stack exhaustion, which the source,
having no depth limit, would eventually hit on adversarial input). -/
def parse : Nat → Nat → TokState → Except JsError (Node × TokState)
  | 0, _, _ => .error (.error "Maximum call stack size exceeded")
  | fuel + 1, lineno, st => do
    let (top, st) ← next st
    assertType top .keyword none
    if top.lexeme = .str "PRINT" then do
      let (e, st) ← expectExpr st
      let (lm, st) ← acceptLineMod st
      .ok (.PRINT lineno e lm, st)
    else if top.lexeme = .str "LET" then do
      let (v, st) ← expectVariable lineno st
      let (_, st) ← expectOperation "=" st
      let (e, st) ← expectExpr st
      .ok (.LET lineno v e, st)
    else if top.lexeme = .str "REM" then do
      let (c, st) ← expectComment st
      .ok (.REM lineno c, st)
    else if top.lexeme = .str "PAUSE" then do
      let (e, st) ← expectExpr st
      .ok (.PAUSE lineno e, st)
    else if top.lexeme = .str "INPUT" then do
      let (e, st) ← expectExpr st
      let (_, st) ← expectLineMod st
      let (v, st) ← expectVariable lineno st
      .ok (.INPUT lineno e v, st)
    else if top.lexeme = .str "FOR" then do
      let (v, st) ← expectVariable lineno st
      let (_, st) ← expectOperation "=" st
      let (frm, st) ← expectExpr st
      let (_, st) ← expectKeyword "TO" st
      let (to_, st) ← expectExpr st
      let (stepTok, st) ← acceptKeyword "STEP" st
      match stepTok with
      | some _ => do
        let (stepE, st) ← expectExpr st
        .ok (.FOR lineno v frm to_ (some stepE), st)
      | none => .ok (.FOR lineno v frm to_ none, st)
    else if top.lexeme = .str "NEXT" then do
      let (v, st) ← expectVariable lineno st
      .ok (.NEXT lineno v, st)
    else if top.lexeme = .str "GOTO" then do
      let (e, st) ← expectExpr st
      .ok (.GOTO lineno e, st)
    else if top.lexeme = .str "END" then .ok (.END lineno, st)
    else if top.lexeme = .str "IF" then do
      let (cond, st) ← expectExpr st
      let (_, st) ← expectKeyword "THEN" st
      let (thenN, st) ← parse fuel lineno st
      let (elseTok, st) ← acceptKeyword "else" st
      match elseTok with
      | some _ => do
        let (elseN, st) ← parse fuel lineno st
        .ok (.IF lineno cond thenN (some elseN), st)
      | none => .ok (.IF lineno cond thenN none, st)
    else .error (.error ("Unexpected token " ++ lexStr top.lexeme))

/-- `Parser.parseLine(line)`: tokenize, read the line-number token, build
the parser, parse one statement. -/
def parseLine (line : String) : Except JsError Node := do
  let (tlineno, toks) ← tokenize line
  let st : TokState := ⟨toks, 0, true, (tlineno : Int)⟩
  let (lt, st) ← next st
  let lineno ← getLineNo lt
  let (node, _) ← parse (toks.length + 1) lineno st
  .ok node

/-! ## Auxiliary notions for the theorems -/

/-- Reachability of scan positions: the suffixes of the statement text the
tokenize loop visits, each step consuming what one successful eat matched. -/
inductive Reaches : List Char → List Char → Prop where
  | refl (s : List Char) : Reaches s s
  | step {s r : List Char} {ts : List Token} {n : Nat} :
      s ≠ [] → eatAny s = some (ts, n) → Reaches (s.drop n) r → Reaches s r

/-- An error value carrying only a human-readable message and no line
number: a plain `Error` or a runtime `TypeError`, as opposed to the
repository's `ParseError` class. -/
def msgOnly (e : JsError) : Prop :=
  (∃ m, e = .error m) ∨ (∃ m, e = .typeError m)

/-! ## Character-level lemmas about case folding -/

theorem find?_upperPairs_some {c : Char} {p : Char × Char}
    (h : upperPairs.find? (fun q => q.1 == c) = some p) :
    p ∈ upperPairs ∧ p.1 = c := by
  refine ⟨List.mem_of_find?_eq_some h, ?_⟩
  have := List.find?_some h
  simpa using this

theorem upper_eq_of_none {c : Char}
    (h : upperPairs.find? (fun q => q.1 == c) = none) : upper c = c := by
  unfold upper
  rw [h]

theorem upper_eq_of_some {c : Char} {p : Char × Char}
    (h : upperPairs.find? (fun q => q.1 == c) = some p) : upper c = p.2 := by
  unfold upper
  rw [h]

theorem upperPairs_facts : ∀ p ∈ upperPairs,
    isSpace p.1 = false ∧ isSpace p.2 = false ∧
    isDigit p.1 = false ∧ isDigit p.2 = false ∧
    isAlpha p.1 = true ∧ isAlpha p.2 = true ∧
    p.1 ≠ '$' ∧ p.2 ≠ '$' := by decide

theorem upperPairs_fst_ne_snd :
    ∀ p ∈ upperPairs, ∀ q ∈ upperPairs, p.1 ≠ q.2 := by decide

theorem find?_upperPairs_none {c : Char} (h : ∀ p ∈ upperPairs, p.1 ≠ c) :
    upperPairs.find? (fun q => q.1 == c) = none := by
  rw [List.find?_eq_none]
  intro p hp
  simpa using h p hp

theorem isSpace_upper (c : Char) : isSpace (upper c) = isSpace c := by
  cases h : upperPairs.find? (fun q => q.1 == c) with
  | none => rw [upper_eq_of_none h]
  | some p =>
    obtain ⟨hm, hc⟩ := find?_upperPairs_some h
    rw [upper_eq_of_some h, ← hc]
    have hf := upperPairs_facts p hm
    rw [hf.1, hf.2.1]

theorem isDigit_upper (c : Char) : isDigit (upper c) = isDigit c := by
  cases h : upperPairs.find? (fun q => q.1 == c) with
  | none => rw [upper_eq_of_none h]
  | some p =>
    obtain ⟨hm, hc⟩ := find?_upperPairs_some h
    rw [upper_eq_of_some h, ← hc]
    have hf := upperPairs_facts p hm
    rw [hf.2.2.1, hf.2.2.2.1]

theorem isAlpha_upper (c : Char) : isAlpha (upper c) = isAlpha c := by
  cases h : upperPairs.find? (fun q => q.1 == c) with
  | none => rw [upper_eq_of_none h]
  | some p =>
    obtain ⟨hm, hc⟩ := find?_upperPairs_some h
    rw [upper_eq_of_some h, ← hc]
    have hf := upperPairs_facts p hm
    rw [hf.2.2.2.2.1, hf.2.2.2.2.2.1]

theorem upper_of_isDigit {c : Char} (h : isDigit c = true) : upper c = c := by
  refine upper_eq_of_none (find?_upperPairs_none ?_)
  intro p hp hc
  have hf := (upperPairs_facts p hp).2.2.1
  rw [hc, h] at hf
  simp at hf

theorem upper_idem (c : Char) : upper (upper c) = upper c := by
  cases h : upperPairs.find? (fun q => q.1 == c) with
  | none => rw [upper_eq_of_none h, upper_eq_of_none h]
  | some p =>
    obtain ⟨hm, _⟩ := find?_upperPairs_some h
    rw [upper_eq_of_some h]
    refine upper_eq_of_none (find?_upperPairs_none ?_)
    intro q hq
    exact upperPairs_fst_ne_snd q hq p hm

theorem eq_dollar_of_upper {c : Char} (h : upper c = '$') : c = '$' := by
  cases hf : upperPairs.find? (fun q => q.1 == c) with
  | none => rw [← upper_eq_of_none hf]; exact h
  | some p =>
    obtain ⟨hm, _⟩ := find?_upperPairs_some hf
    rw [upper_eq_of_some hf] at h
    exact absurd h (upperPairs_facts p hm).2.2.2.2.2.2.2

theorem eq_of_upper_eq_of_digit {c₁ c₂ : Char} (hd : isDigit c₁ = true)
    (h : upper c₁ = upper c₂) : c₁ = c₂ := by
  have h1 : upper c₁ = c₁ := upper_of_isDigit hd
  rw [h1] at h
  cases hf : upperPairs.find? (fun q => q.1 == c₂) with
  | none => rw [h, upper_eq_of_none hf]
  | some p =>
    obtain ⟨hm, _⟩ := find?_upperPairs_some hf
    rw [upper_eq_of_some hf] at h
    have hf2 := (upperPairs_facts p hm).2.2.2.1
    rw [← h, hd] at hf2
    simp at hf2

/-! ## Matcher-level lemmas -/

theorem wsCount_cons (c : Char) (s : List Char) :
    wsCount (c :: s) = if isSpace c then wsCount s + 1 else 0 := by
  simp only [wsCount, List.takeWhile_cons]
  cases isSpace c <;> simp

theorem wsCount_congr : ∀ {s₁ s₂ : List Char},
    s₁.map upper = s₂.map upper → wsCount s₁ = wsCount s₂ := by
  intro s₁
  induction s₁ with
  | nil =>
    intro s₂ h
    cases s₂ with
    | nil => rfl
    | cons b t => simp at h
  | cons a t ih =>
    intro s₂ h
    cases s₂ with
    | nil => simp at h
    | cons b t₂ =>
      simp only [List.map_cons, List.cons.injEq] at h
      have hsp : isSpace a = isSpace b := by
        rw [← isSpace_upper a, ← isSpace_upper b, h.1]
      rw [wsCount_cons, wsCount_cons, hsp, ih h.2]

theorem takeWhile_digit_congr : ∀ {s₁ s₂ : List Char},
    s₁.map upper = s₂.map upper →
    s₁.takeWhile isDigit = s₂.takeWhile isDigit := by
  intro s₁
  induction s₁ with
  | nil =>
    intro s₂ h
    cases s₂ with
    | nil => rfl
    | cons b t => simp at h
  | cons a t ih =>
    intro s₂ h
    cases s₂ with
    | nil => simp at h
    | cons b t₂ =>
      simp only [List.map_cons, List.cons.injEq] at h
      have hd : isDigit a = isDigit b := by
        rw [← isDigit_upper a, ← isDigit_upper b, h.1]
      rw [List.takeWhile_cons, List.takeWhile_cons, ← hd]
      cases hda : isDigit a with
      | false => simp
      | true =>
        have hab : a = b := eq_of_upper_eq_of_digit hda h.1
        simp only [ih h.2, hab]

theorem matchNameCI_congr (names : List String) : ∀ {s₁ s₂ : List Char},
    s₁.map upper = s₂.map upper →
    matchNameCI names s₁ = matchNameCI names s₂ := by
  induction names with
  | nil => intro s₁ s₂ _; rfl
  | cons k rest ih =>
    intro s₁ s₂ h
    have htake : (s₁.take k.data.length).map upper =
        (s₂.take k.data.length).map upper := by
      rw [List.map_take, List.map_take, h]
    have hdrop : (s₁.drop k.data.length).map upper =
        (s₂.drop k.data.length).map upper := by
      rw [List.map_drop, List.map_drop, h]
    simp only [matchNameCI]
    rw [htake]
    by_cases hc : (s₂.take k.data.length).map upper = k.data
    · simp only [hc, if_true, wsCount_congr hdrop]
    · simp only [hc, if_false, ih h]

theorem matchVar_congr : ∀ {s₁ s₂ : List Char},
    s₁.map upper = s₂.map upper → matchVar s₁ = matchVar s₂ := by
  intro s₁ s₂ h
  cases s₁ with
  | nil =>
    cases s₂ with
    | nil => rfl
    | cons b t => simp at h
  | cons a t =>
    cases s₂ with
    | nil => simp at h
    | cons b t₂ =>
      simp only [List.map_cons, List.cons.injEq] at h
      have ha : isAlpha a = isAlpha b := by
        rw [← isAlpha_upper a, ← isAlpha_upper b, h.1]
      simp only [matchVar, ha]
      cases hb : isAlpha b with
      | false => simp [hb]
      | true =>
        simp only [hb, if_true]
        have hds : t.takeWhile isDigit = t₂.takeWhile isDigit :=
          takeWhile_digit_congr h.2
        have hrest : (t.drop (t.takeWhile isDigit).length).map upper =
            (t₂.drop (t₂.takeWhile isDigit).length).map upper := by
          rw [hds, List.map_drop, List.map_drop, h.2]
        have hdollar :
            ((if (t.drop (t.takeWhile isDigit).length).head? = some '$' then 1 else 0) : Nat) =
            if (t₂.drop (t₂.takeWhile isDigit).length).head? = some '$' then 1 else 0 := by
          cases hr1 : t.drop (t.takeWhile isDigit).length with
          | nil =>
            cases hr2 : t₂.drop (t₂.takeWhile isDigit).length with
            | nil => rfl
            | cons r₂ u₂ => rw [hr1, hr2] at hrest; simp at hrest
          | cons r₁ u₁ =>
            cases hr2 : t₂.drop (t₂.takeWhile isDigit).length with
            | nil => rw [hr1, hr2] at hrest; simp at hrest
            | cons r₂ u₂ =>
              rw [hr1, hr2] at hrest
              simp only [List.map_cons, List.cons.injEq] at hrest
              have hiff : (r₁ = '$') = (r₂ = '$') := by
                apply propext
                constructor
                · intro h1
                  apply eq_dollar_of_upper
                  rw [← hrest.1, h1]
                  rfl
                · intro h2
                  apply eq_dollar_of_upper
                  rw [hrest.1, h2]
                  rfl
              simp only [List.head?_cons, Option.some.injEq, hiff]
        have hws : wsCount ((t.drop (t.takeWhile isDigit).length).drop
              (if (t.drop (t.takeWhile isDigit).length).head? = some '$' then 1 else 0)) =
            wsCount ((t₂.drop (t₂.takeWhile isDigit).length).drop
              (if (t₂.drop (t₂.takeWhile isDigit).length).head? = some '$' then 1 else 0)) := by
          apply wsCount_congr
          calc ((t.drop (t.takeWhile isDigit).length).drop
                  (if (t.drop (t.takeWhile isDigit).length).head? = some '$' then 1 else 0)).map upper
              = ((t.drop (t.takeWhile isDigit).length).map upper).drop
                  (if (t.drop (t.takeWhile isDigit).length).head? = some '$' then 1 else 0) :=
                List.map_drop upper (t.drop (t.takeWhile isDigit).length) _
            _ = ((t₂.drop (t₂.takeWhile isDigit).length).map upper).drop
                  (if (t₂.drop (t₂.takeWhile isDigit).length).head? = some '$' then 1 else 0) := by
                rw [hrest, hdollar]
            _ = ((t₂.drop (t₂.takeWhile isDigit).length).drop
                  (if (t₂.drop (t₂.takeWhile isDigit).length).head? = some '$' then 1 else 0)).map upper :=
                (List.map_drop upper (t₂.drop (t₂.takeWhile isDigit).length) _).symm
        rw [hws, hdollar]
        simp only [List.map_cons, h.1, hds]

theorem matchVar_upper {s : List Char} {k : String} {n : Nat}
    (h : matchVar s = some (k, n)) : k.data.map upper = k.data := by
  cases s with
  | nil => simp [matchVar] at h
  | cons c cs =>
    simp only [matchVar] at h
    by_cases ha : isAlpha c
    · simp only [ha, if_true, Option.some.injEq, Prod.mk.injEq] at h
      rw [← h.1]
      show ((c :: cs.takeWhile isDigit).map upper).map upper = _
      rw [List.map_map]
      exact List.map_congr_left (fun a _ => upper_idem a)
    · simp [ha] at h

theorem matchNameCI_some : ∀ {names : List String} {s : List Char}
    {k : String} {n : Nat}, matchNameCI names s = some (k, n) →
    k ∈ names ∧ (s.take k.data.length).map upper = k.data ∧
    n = k.data.length + wsCount (s.drop k.data.length) := by
  intro names
  induction names with
  | nil => intro s k n h; simp [matchNameCI] at h
  | cons a rest ih =>
    intro s k n h
    simp only [matchNameCI] at h
    by_cases hc : (s.take a.data.length).map upper = a.data
    · simp only [hc, if_true, Option.some.injEq, Prod.mk.injEq] at h
      obtain ⟨h1, h2⟩ := h
      subst h1
      exact ⟨List.mem_cons_self a rest, hc, h2.symm⟩
    · simp only [hc, if_false] at h
      obtain ⟨hm, ht, hn⟩ := ih h
      exact ⟨List.mem_cons_of_mem a hm, ht, hn⟩

/-- The length of text a matched name covers never exceeds the input. -/
theorem le_length_of_take_map {s : List Char} {k : String}
    (h : (s.take k.data.length).map upper = k.data) :
    k.data.length ≤ s.length := by
  have := congrArg List.length h
  simp only [List.length_map, List.length_take] at this
  omega

/-- First-match uniqueness: when the input literally begins with a name of
the alternation (uppercase, no name of the list a prefix of another), the
alternation matches exactly that name. -/
theorem matchNameCI_append {names : List String} {k : String}
    (rest : List Char) (hk : k ∈ names)
    (hupper : ∀ a ∈ names, a.data.map upper = a.data)
    (hno : ∀ a ∈ names, ∀ b ∈ names, a.data = b.data.take a.data.length → a = b) :
    matchNameCI names (k.data ++ rest) = some (k, k.data.length + wsCount rest) := by
  induction names with
  | nil => simp at hk
  | cons a rest' ih =>
    by_cases hak : a = k
    · subst hak
      simp only [matchNameCI]
      rw [List.take_left, hupper a (List.mem_cons_self a rest'), if_pos rfl,
        List.drop_left]
    · have hkmem : k ∈ rest' := by
        cases List.mem_cons.mp hk with
        | inl h => exact absurd h.symm hak
        | inr h => exact h
      simp only [matchNameCI]
      have hcond : ¬ ((k.data ++ rest).take a.data.length).map upper = a.data := by
        intro hc
        rcases Nat.le_total a.data.length k.data.length with hle | hle
        · rw [List.take_append_of_le_length hle] at hc
          have hka : a.data = k.data.take a.data.length := by
            conv_lhs => rw [← hc]
            rw [List.map_take, hupper k hk]
          exact hak (hno a (List.mem_cons_self a rest') k hk hka)
        · rw [List.take_append_eq_append_take, List.take_of_length_le hle,
            List.map_append, hupper k hk] at hc
          have hka : k.data = a.data.take k.data.length := by
            rw [← hc, List.take_left]
          exact hak (hno k hk a (List.mem_cons_self a rest') hka).symm
      rw [if_neg hcond]
      exact ih hkmem (fun b hb => hupper b (List.mem_cons_of_mem a hb))
        (fun b hb c hc => hno b (List.mem_cons_of_mem a hb) c (List.mem_cons_of_mem a hc))

/-! ## Progress: every successful eat consumes at least one character -/

theorem firstSome_eq {a b : Option (List Token × Nat)} {r : List Token × Nat}
    (h : firstSome a b = some r) : a = some r ∨ (a = none ∧ b = some r) := by
  cases a with
  | none => exact Or.inr ⟨rfl, h⟩
  | some x => exact Or.inl (by simpa [firstSome] using h)

theorem KEYWORDS_ne_nil : ∀ k ∈ KEYWORDS, k.data ≠ [] := by decide

theorem CONSTANTS_ne_nil : ∀ k ∈ CONSTANTS, k.data ≠ [] := by decide

theorem logicWords_ne_nil : ∀ k ∈ logicWords, k.data ≠ [] := by decide

theorem matchNameCI_pos {names : List String} {s : List Char} {k : String}
    {n : Nat} (hne : ∀ a ∈ names, a.data ≠ [])
    (h : matchNameCI names s = some (k, n)) : 1 ≤ n ∧ 1 ≤ s.length := by
  obtain ⟨hm, ht, hn⟩ := matchNameCI_some h
  have h1 : k.data ≠ [] := hne k hm
  have h2 : 1 ≤ k.data.length := by
    cases hd : k.data with
    | nil => exact absurd hd h1
    | cons x xs => simp
  have h3 := le_length_of_take_map ht
  omega

theorem eatKeyword_pos {s : List Char} {ts : List Token} {n : Nat}
    (h : eatKeyword s = some (ts, n)) : 1 ≤ n := by
  unfold eatKeyword at h
  cases hm : matchNameCI KEYWORDS s with
  | none => rw [hm] at h; exact absurd h (by simp)
  | some p =>
    rw [hm] at h
    obtain ⟨k, m⟩ := p
    have hp := matchNameCI_pos KEYWORDS_ne_nil hm
    by_cases hr : k = "REM"
    · simp only [hr, if_true] at h
      have := h
      simp only [Option.some.injEq, Prod.mk.injEq] at this
      omega
    · simp only [hr, if_false, Option.some.injEq, Prod.mk.injEq] at h
      omega

theorem scanQB_pos {s body : List Char} {n : Nat}
    (h : scanQB s = some (body, n)) : 1 ≤ n := by
  cases s with
  | nil => simp [scanQB] at h
  | cons c r =>
    rw [scanQB.eq_def] at h
    simp only [] at h
    by_cases h1 : c = '"'
    · simp only [h1, if_true, Option.some.injEq, Prod.mk.injEq] at h
      omega
    · simp only [h1, if_false] at h
      by_cases h2 : c = '\\'
      · simp only [h2, if_true] at h
        cases r with
        | nil => simp at h
        | cons c2 r2 =>
          by_cases h3 : c2 = '\n'
          · simp [h3] at h
          · simp only [h3, if_false] at h
            cases hq : scanQB r2 with
            | none => rw [hq] at h; simp at h
            | some p =>
              rw [hq] at h
              simp at h
              omega
      · simp only [h2, if_false] at h
        cases hq : scanQB r with
        | none => rw [hq] at h; simp at h
        | some p =>
          rw [hq] at h
          simp at h
          omega

theorem matchVar_pos {s : List Char} {k : String} {n : Nat}
    (h : matchVar s = some (k, n)) : 1 ≤ n := by
  cases s with
  | nil => simp [matchVar] at h
  | cons c cs =>
    simp only [matchVar] at h
    by_cases ha : isAlpha c
    · simp only [ha, if_true, Option.some.injEq, Prod.mk.injEq] at h
      omega
    · simp [ha] at h

theorem matchNum_pos {s : List Char} {k : String} {n : Nat}
    (h : matchNum s = some (k, n)) : 1 ≤ n := by
  have hne : (s.takeWhile isDigit).isEmpty = false := by
    by_contra hc
    rw [Bool.not_eq_false] at hc
    simp only [matchNum, hc, if_true] at h
    exact absurd h (by simp)
  have hlen : 1 ≤ (s.takeWhile isDigit).length := by
    cases hd : s.takeWhile isDigit with
    | nil => rw [hd] at hne; simp at hne
    | cons x xs => simp
  simp only [matchNum, hne, Bool.false_eq_true, if_false] at h
  split_ifs at h with h2 h3 <;>
    (simp only [Option.some.injEq, Prod.mk.injEq] at h; omega)

theorem matchOp_pos {s : List Char} {k : String} {n : Nat}
    (h : matchOp s = some (k, n)) : 1 ≤ n := by
  cases s with
  | nil => simp [matchOp] at h
  | cons c r =>
    simp only [matchOp] at h
    split_ifs at h
    all_goals simp only [Option.some.injEq, Prod.mk.injEq] at h
    all_goals omega

theorem eatQuote_pos {s : List Char} {ts : List Token} {n : Nat}
    (h : eatQuote s = some (ts, n)) : 1 ≤ n := by
  cases s with
  | nil => simp [eatQuote] at h
  | cons c r =>
    simp only [eatQuote] at h
    by_cases hc : c = '"'
    · simp only [hc, if_true] at h
      cases hq : scanQB r with
      | none => rw [hq] at h; simp at h
      | some p =>
        rw [hq] at h
        simp only [Option.some.injEq, Prod.mk.injEq] at h
        omega
    · simp [hc] at h

theorem eatLineMod_pos {s : List Char} {ts : List Token} {n : Nat}
    (h : eatLineMod s = some (ts, n)) : 1 ≤ n := by
  cases s with
  | nil => simp [eatLineMod] at h
  | cons c r =>
    simp only [eatLineMod] at h
    by_cases hc : c = ';'
    · simp only [hc, if_true, Option.some.injEq, Prod.mk.injEq] at h
      omega
    · simp [hc] at h

theorem eatMapped_pos {f : String × Nat → List Token × Nat}
    (hf : ∀ p, (f p).2 = p.2) {m : Option (String × Nat)}
    {ts : List Token} {n : Nat}
    (hbase : ∀ k j, m = some (k, j) → 1 ≤ j)
    (h : m.map f = some (ts, n)) : 1 ≤ n := by
  cases m with
  | none => simp at h
  | some p =>
    have h' : f p = (ts, n) := by simpa using h
    obtain ⟨k, j⟩ := p
    have h2 := hbase k j rfl
    have h3 := hf (k, j)
    rw [h'] at h3
    simp at h3
    omega

theorem eatAny_pos {s : List Char} {ts : List Token} {n : Nat}
    (h : eatAny s = some (ts, n)) : 1 ≤ n := by
  unfold eatAny at h
  rcases firstSome_eq h with h | ⟨_, h⟩
  · exact eatKeyword_pos h
  rcases firstSome_eq h with h | ⟨_, h⟩
  · exact eatQuote_pos h
  rcases firstSome_eq h with h | ⟨_, h⟩
  · exact eatMapped_pos (fun p => rfl)
      (fun k j hm => (matchNameCI_pos logicWords_ne_nil hm).1) h
  rcases firstSome_eq h with h | ⟨_, h⟩
  · exact absurd h (by simp [eatFunction, matchNameCI, Functions])
  rcases firstSome_eq h with h | ⟨_, h⟩
  · exact eatMapped_pos (fun p => rfl)
      (fun k j hm => (matchNameCI_pos CONSTANTS_ne_nil hm).1) h
  rcases firstSome_eq h with h | ⟨_, h⟩
  · exact eatMapped_pos (fun p => rfl) (fun k j hm => matchVar_pos hm) h
  rcases firstSome_eq h with h | ⟨_, h⟩
  · exact eatMapped_pos (fun p => rfl) (fun k j hm => matchNum_pos hm) h
  rcases firstSome_eq h with h | ⟨_, h⟩
  · exact eatMapped_pos (fun p => rfl) (fun k j hm => matchOp_pos hm) h
  · exact eatLineMod_pos h

/-! ## Lemmas about the tokenize loop -/

theorem Reaches_nil {r : List Char} (h : Reaches [] r) : r = [] := by
  cases h with
  | refl => rfl
  | step h1 _ _ => exact absurd rfl h1

theorem scanAux_error_form {lineno : Nat} : ∀ {fuel : Nat} {s : List Char}
    {e : JsError}, scanAux lineno fuel s = .error e →
    ∃ msg, e = .parseError lineno msg := by
  intro fuel
  induction fuel with
  | zero =>
    intro s e h
    cases s with
    | nil => simp [scanAux] at h
    | cons c cs =>
      simp only [scanAux, Except.error.injEq] at h
      exact ⟨_, h.symm⟩
  | succ fuel ih =>
    intro s e h
    cases s with
    | nil => simp [scanAux] at h
    | cons c cs =>
      rw [scanAux] at h
      split at h
      · simp only [Except.error.injEq] at h
        exact ⟨_, h.symm⟩
      · split at h
        · simp only [Except.error.injEq] at h
          rw [← h]
          exact ih (by assumption)
        · simp at h

theorem scanAux_congr {lineno : Nat} : ∀ {f₁ : Nat} {f₂ : Nat} {s : List Char},
    s.length ≤ f₁ → s.length ≤ f₂ →
    scanAux lineno f₁ s = scanAux lineno f₂ s := by
  intro f₁
  induction f₁ with
  | zero =>
    intro f₂ s h1 _
    have : s = [] := List.eq_nil_of_length_eq_zero (Nat.le_zero.mp h1)
    subst this
    cases f₂ <;> simp [scanAux]
  | succ f₁ ih =>
    intro f₂ s h1 h2
    cases s with
    | nil => cases f₂ <;> simp [scanAux]
    | cons c cs =>
      cases f₂ with
      | zero => simp at h2
      | succ f₂' =>
        rw [scanAux, scanAux]
        cases he : eatAny (c :: cs) with
        | none => rfl
        | some p =>
          obtain ⟨ts, n⟩ := p
          simp only []
          have hn := eatAny_pos he
          have hlen : ((c :: cs).drop n).length ≤ f₁ := by
            simp only [List.length_drop, List.length_cons]
            simp only [List.length_cons] at h1
            omega
          have hlen2 : ((c :: cs).drop n).length ≤ f₂' := by
            simp only [List.length_drop, List.length_cons]
            simp only [List.length_cons] at h2
            omega
          rw [ih hlen hlen2]

theorem scanAux_err_iff {lineno : Nat} : ∀ {fuel : Nat} {s : List Char},
    s.length ≤ fuel →
    ((∃ e, scanAux lineno fuel s = .error e) ↔
      ∃ r, Reaches s r ∧ r ≠ [] ∧ eatAny r = none) := by
  intro fuel
  induction fuel with
  | zero =>
    intro s h1
    have : s = [] := List.eq_nil_of_length_eq_zero (Nat.le_zero.mp h1)
    subst this
    constructor
    · rintro ⟨e, he⟩
      simp [scanAux] at he
    · rintro ⟨r, hr, hne, _⟩
      exact absurd (Reaches_nil hr) hne
  | succ fuel ih =>
    intro s h1
    cases s with
    | nil =>
      constructor
      · rintro ⟨e, he⟩
        simp [scanAux] at he
      · rintro ⟨r, hr, hne, _⟩
        exact absurd (Reaches_nil hr) hne
    | cons c cs =>
      cases he : eatAny (c :: cs) with
      | none =>
        constructor
        · intro _
          exact ⟨c :: cs, .refl _, by simp, he⟩
        · intro _
          rw [scanAux, he]
          exact ⟨_, rfl⟩
      | some p =>
        obtain ⟨ts, n⟩ := p
        have hn := eatAny_pos he
        have hlen : ((c :: cs).drop n).length ≤ fuel := by
          simp only [List.length_drop, List.length_cons]
          simp only [List.length_cons] at h1
          omega
        have hstep : (∃ e, scanAux lineno (fuel + 1) (c :: cs) = .error e) ↔
            ∃ e, scanAux lineno fuel ((c :: cs).drop n) = .error e := by
          rw [scanAux, he]
          simp only []
          cases hrec : scanAux lineno fuel ((c :: cs).drop n) with
          | error e2 => simp
          | ok rest => simp
        rw [hstep, ih hlen]
        constructor
        · rintro ⟨r, hr, hne, hnone⟩
          refine ⟨r, ?_, hne, hnone⟩
          exact .step (by simp) he hr
        · rintro ⟨r, hr, hne, hnone⟩
          cases hr with
          | refl => rw [he] at hnone; exact absurd hnone (by simp)
          | step h1' he' hr' =>
            rw [he] at he'
            simp only [Option.some.injEq, Prod.mk.injEq] at he'
            rw [← he'.2] at hr'
            exact ⟨r, hr', hne, hnone⟩

theorem KEYWORDS_upper : ∀ a ∈ KEYWORDS, a.data.map upper = a.data := by decide

theorem KEYWORDS_noprefix : ∀ a ∈ KEYWORDS, ∀ b ∈ KEYWORDS,
    a.data = b.data.take a.data.length → a = b := by decide

/-- Every error `tokenize` raises is a `ParseError`, carrying a line number
field and a message. -/
theorem tokenize_error_parseError {line : String} {e : JsError}
    (h : tokenize line = .error e) : ∃ n msg, e = .parseError n msg := by
  unfold tokenize at h
  cases hm : matchLine line.data with
  | none =>
    rw [hm] at h
    simp only [Except.error.injEq] at h
    exact ⟨-1, _, h.symm⟩
  | some p =>
    rw [hm] at h
    obtain ⟨n, cnt⟩ := p
    simp only [] at h
    cases hs : scanTokens n (line.data.drop cnt) with
    | error e' =>
      rw [hs] at h
      simp only [Except.error.injEq] at h
      obtain ⟨msg, hmsg⟩ := scanAux_error_form hs
      exact ⟨n, msg, by rw [← h, hmsg]⟩
    | ok ts => rw [hs] at h; simp at h

/-- When the `REM` keyword matches, the whole remaining statement text
becomes a single comment token and the scan loop terminates at once. -/
theorem scanTokens_REM {lineno : Nat} {s : List Char} {n : Nat}
    (h : matchNameCI KEYWORDS s = some ("REM", n)) :
    scanTokens lineno s =
      .ok [⟨.keyword, .str "REM"⟩, ⟨.comment, .str (String.mk (s.drop n))⟩] := by
  have hkw : eatKeyword s =
      some ([⟨.keyword, .str "REM"⟩, ⟨.comment, .str (String.mk (s.drop n))⟩],
        s.length) := by
    unfold eatKeyword
    rw [h]
    simp
  have hany : eatAny s =
      some ([⟨.keyword, .str "REM"⟩, ⟨.comment, .str (String.mk (s.drop n))⟩],
        s.length) := by
    unfold eatAny
    rw [hkw]
    rfl
  obtain ⟨hm, ht, hn⟩ := matchNameCI_some h
  have h3 : ("REM".data).length ≤ s.length := le_length_of_take_map ht
  cases s with
  | nil => simp at h3
  | cons c cs =>
    show scanAux lineno (c :: cs).length (c :: cs) = _
    rw [List.length_cons, scanAux, hany]
    simp only []
    rw [show (c :: cs).drop (c :: cs).length = [] from List.drop_length _]
    simp [scanAux]

/-- A keyword other than `REM` at the scan position, followed immediately
by a non-whitespace character, lexes as exactly its own keyword token, and
the scan continues independently on the remaining characters. -/
theorem scanTokens_keyword_split {lineno : Nat} {k : String} {c : Char}
    {cs : List Char} (hk : k ∈ KEYWORDS) (hrem : k ≠ "REM")
    (hc : isSpace c = false) :
    scanTokens lineno (k.data ++ c :: cs) =
      (scanTokens lineno (c :: cs)).map
        (fun r => (⟨.keyword, .str k⟩ : Token) :: r) := by
  have hws : wsCount (c :: cs) = 0 := by
    rw [wsCount_cons, hc]
    simp
  have hm : matchNameCI KEYWORDS (k.data ++ c :: cs) = some (k, k.data.length) := by
    rw [matchNameCI_append (c :: cs) hk KEYWORDS_upper KEYWORDS_noprefix, hws,
      Nat.add_zero]
  have hkw : eatKeyword (k.data ++ c :: cs) =
      some ([⟨.keyword, .str k⟩], k.data.length) := by
    unfold eatKeyword
    rw [hm]
    simp [hrem]
  have hany : eatAny (k.data ++ c :: cs) =
      some ([⟨.keyword, .str k⟩], k.data.length) := by
    unfold eatAny
    rw [hkw]
    rfl
  have hkd : k.data ≠ [] := KEYWORDS_ne_nil k hk
  cases hkdata : k.data with
  | nil => exact absurd hkdata hkd
  | cons d ds =>
    rw [hkdata] at hany
    simp only [List.cons_append] at hany
    show scanAux lineno (d :: ds ++ c :: cs).length (d :: (ds ++ c :: cs)) = _
    have hlen : (d :: ds ++ c :: cs).length = (ds ++ c :: cs).length + 1 := by simp
    rw [hlen, scanAux, hany]
    simp only []
    have hdrop : (d :: (ds ++ c :: cs)).drop (d :: ds).length = c :: cs := by
      simp
    rw [hdrop]
    show _ = Except.map _ (scanAux lineno (c :: cs).length (c :: cs))
    have hfuel : (c :: cs).length ≤ (ds ++ c :: cs).length := by simp
    rw [show scanAux lineno (c :: cs).length (c :: cs) =
        scanAux lineno (ds ++ c :: cs).length (c :: cs) from
      scanAux_congr (Nat.le_refl _) hfuel]
    cases scanAux lineno (ds ++ c :: cs).length (c :: cs) with
    | error e => rfl
    | ok rest => rfl

/-! ## Parser-level lemmas

`goodRes` packages the two facts the error-shape analysis needs about every
parser method's result on a tokenized cursor: a raised error is a plain
message-only `Error`/`TypeError` (never the line-number-carrying
`ParseError`), and a returned cursor is still tokenized. -/

def goodRes {α : Type} : Except JsError (α × TokState) → Prop
  | .error e => msgOnly e
  | .ok (_, st') => st'.tokenized = true

theorem goodRes_bind {α β : Type} {m : Except JsError α}
    {f : α → Except JsError (β × TokState)}
    (hm : ∀ e, m = .error e → msgOnly e)
    (hf : ∀ a, m = .ok a → goodRes (f a)) : goodRes (m.bind f) := by
  cases m with
  | error e =>
    show goodRes (.error e)
    exact hm e rfl
  | ok a =>
    show goodRes (f a)
    exact hf a rfl

theorem assertTokenized_ok {st : TokState} (h : st.tokenized = true) :
    assertTokenized st = .ok () := by
  unfold assertTokenized
  rw [h]
  simp

theorem peek_ok {st : TokState} (h : st.tokenized = true) (n : Nat) :
    ∃ t, peek st n = .ok t := by
  unfold peek
  rw [assertTokenized_ok h]
  by_cases hb : st.tokens.length ≤ st.index + n
  · exact ⟨eofTok, by simp [hb]; rfl⟩
  · exact ⟨st.tokens.getD (st.index + n) eofTok, by simp [hb]; rfl⟩

theorem next_ok {st : TokState} (h : st.tokenized = true) :
    ∃ t st', next st = .ok (t, st') ∧ st'.tokenized = true ∧
      st'.tokens = st.tokens ∧ st.index ≤ st'.index := by
  unfold next
  rw [assertTokenized_ok h]
  by_cases hb : st.tokens.length ≤ st.index
  · exact ⟨eofTok, st, by simp [hb]; rfl, h, rfl, Nat.le_refl _⟩
  · refine ⟨st.tokens.getD st.index eofTok, { st with index := st.index + 1 },
      by simp [hb]; rfl, h, rfl, by simp⟩

theorem assertType_err {t : Token} {ty : TokType} {v : Option Lexeme}
    {e : JsError} (h : assertType t ty v = .error e) : msgOnly e := by
  unfold assertType at h
  by_cases h1 : t.type ≠ ty
  · rw [if_pos h1] at h
    simp only [Except.error.injEq] at h
    exact Or.inl ⟨_, h.symm⟩
  · rw [if_neg h1] at h
    cases v with
    | none => simp at h
    | some v2 =>
      simp only [] at h
      by_cases h2 : t.lexeme ≠ v2
      · rw [if_pos h2] at h
        simp only [Except.error.injEq] at h
        exact Or.inl ⟨_, h.symm⟩
      · rw [if_neg h2] at h
        simp at h

/-- Sequencing after a successful unit check reduces away. -/
@[simp] theorem okUnit_bind {α : Type} (x : Except JsError α) :
    (Except.ok () >>= fun _ => x) = x := rfl

/-- Sequencing after a failed check propagates the error. -/
@[simp] theorem errBind {α β : Type} (e : JsError) (f : α → Except JsError β) :
    (Except.error e >>= f) = Except.error e := rfl

/-- Injectivity of a returned pair. -/
theorem ok_pair_inj {α β : Type} {a c : α} {b d : β}
    (h : (Except.ok (a, b) : Except JsError (α × β)) = .ok (c, d)) :
    a = c ∧ b = d := by
  injection h with h1
  exact ⟨congrArg Prod.fst h1, congrArg Prod.snd h1⟩

/-- State bookkeeping of the expression loop: it only advances the cursor,
one token per collected element, and touches nothing else. -/
theorem expectExprLoop_ok : ∀ {fuel : Nat} {st : TokState} {acc res : List Token}
    {st' : TokState}, expectExprLoop fuel st acc = .ok (res, st') →
    st'.tokens = st.tokens ∧ st'.tokenized = st.tokenized ∧
    st'.lineno = st.lineno ∧ st'.index + acc.length = st.index + res.length ∧
    st.index ≤ st'.index := by
  intro fuel
  induction fuel with
  | zero => intro st acc res st' h; simp [expectExprLoop] at h
  | succ fuel ih =>
    intro st acc res st' h
    rw [expectExprLoop] at h
    by_cases htk : st.tokenized = true
    · rw [assertTokenized_ok htk, okUnit_bind] at h
      simp only [] at h
      by_cases hb : st.tokens.length ≤ st.index
      · rw [if_pos hb] at h
        obtain ⟨h1, h2⟩ := ok_pair_inj h
        subst h2
        simp [← h1]
      · rw [if_neg hb] at h
        by_cases he : (st.tokens.getD st.index eofTok).type ∉ expressionTypes
        · rw [if_pos he] at h
          obtain ⟨h1, h2⟩ := ok_pair_inj h
          subst h2
          simp [← h1]
        · rw [if_neg he] at h
          by_cases hc : (st.tokens.getD st.index eofTok).lexeme = .str "]" ∨
              (st.tokens.getD st.index eofTok).lexeme = .str ")"
          · rw [if_pos hc] at h
            obtain ⟨h1, h2⟩ := ok_pair_inj h
            subst h2
            simp [← h1]
          · rw [if_neg hc] at h
            by_cases ho : (st.tokens.getD st.index eofTok).lexeme = .str "[" ∨
                (st.tokens.getD st.index eofTok).lexeme = .str "("
            · rw [if_pos ho] at h
              simp at h
            · rw [if_neg ho] at h
              obtain ⟨h1, h2, h3, h4, h5⟩ := ih h
              simp only [List.length_cons] at h1 h2 h3 h4 h5
              refine ⟨h1, h2, h3, by omega, by omega⟩
    · have hf : st.tokenized = false := by
        cases hv : st.tokenized
        · rfl
        · exact absurd hv htk
      unfold assertTokenized at h
      rw [hf] at h
      simp at h

/-- Reducing a bind of a success. -/
@[simp] theorem okBind {α β : Type} (a : α) (f : α → Except JsError β) :
    (Except.ok a >>= f) = f a := rfl

theorem expectExprLoop_err : ∀ {fuel : Nat} {st : TokState} {acc : List Token}
    {e : JsError}, st.tokenized = true →
    expectExprLoop fuel st acc = .error e → msgOnly e := by
  intro fuel
  induction fuel with
  | zero =>
    intro st acc e _ h
    simp only [expectExprLoop, Except.error.injEq] at h
    exact Or.inl ⟨_, h.symm⟩
  | succ fuel ih =>
    intro st acc e htk h
    rw [expectExprLoop, assertTokenized_ok htk, okUnit_bind] at h
    simp only [] at h
    by_cases hb : st.tokens.length ≤ st.index
    · rw [if_pos hb] at h
      simp at h
    · rw [if_neg hb] at h
      by_cases he : (st.tokens.getD st.index eofTok).type ∉ expressionTypes
      · rw [if_pos he] at h
        simp at h
      · rw [if_neg he] at h
        by_cases hc : (st.tokens.getD st.index eofTok).lexeme = .str "]" ∨
            (st.tokens.getD st.index eofTok).lexeme = .str ")"
        · rw [if_pos hc] at h
          simp at h
        · rw [if_neg hc] at h
          by_cases ho : (st.tokens.getD st.index eofTok).lexeme = .str "[" ∨
              (st.tokens.getD st.index eofTok).lexeme = .str "("
          · rw [if_pos ho] at h
            simp only [Except.error.injEq] at h
            exact Or.inr ⟨_, h.symm⟩
          · rw [if_neg ho] at h
            exact ih (show (TokState.mk st.tokens (st.index + 1) st.tokenized
              st.lineno).tokenized = true from htk) h

/-- Full specification of `expectExpr` on a tokenized cursor: an error is
message-only, and a success returns a non-empty token slice having consumed
at least one token, leaving the rest of the cursor intact. -/
theorem expectExpr_spec {st : TokState} (htk : st.tokenized = true) :
    (∀ e, expectExpr st = .error e → msgOnly e) ∧
    (∀ ex st', expectExpr st = .ok (ex, st') → ex.tokens ≠ [] ∧
      st.index < st'.index ∧ st'.tokens = st.tokens ∧
      st'.tokenized = true ∧ st'.lineno = st.lineno) := by
  unfold expectExpr
  cases hl : expectExprLoop (st.tokens.length + 1) st [] with
  | error e' =>
    constructor
    · intro e he
      simp only [errBind, Except.error.injEq] at he
      rw [← he]
      exact expectExprLoop_err htk hl
    · intro ex st' ho
      simp at ho
  | ok p =>
    obtain ⟨toks, st2⟩ := p
    obtain ⟨h1, h2, h3, h4, h5⟩ := expectExprLoop_ok hl
    simp only [okBind] at *
    by_cases ht0 : toks.isEmpty
    · constructor
      · intro e he
        simp only [ht0, if_true, Except.error.injEq] at he
        exact Or.inl ⟨_, he.symm⟩
      · intro ex st' ho
        simp [ht0] at ho
    · constructor
      · intro e he
        simp [ht0] at he
      · intro ex st' ho
        simp only [ht0, if_false, Bool.false_eq_true] at ho
        obtain ⟨hoe, hos⟩ := ok_pair_inj ho
        subst hos
        have htoks : toks ≠ [] := by
          cases toks with
          | nil => simp at ht0
          | cons x xs => simp
        have hlen : 1 ≤ toks.length := by
          cases toks with
          | nil => exact absurd rfl htoks
          | cons x xs => simp
        refine ⟨?_, by simp at h4; omega, h1, by rw [h2]; exact htk, h3⟩
        rw [← hoe]
        exact htoks

/-- The two facts the parser error analysis needs of every method: raised
errors are message-only, returned cursors stay tokenized. -/
def PSpec {α : Type} (r : Except JsError (α × TokState)) : Prop :=
  (∀ e, r = .error e → msgOnly e) ∧
  (∀ a st', r = .ok (a, st') → st'.tokenized = true)

theorem PSpec_error {α : Type} {e : JsError} (h : msgOnly e) :
    PSpec (.error e : Except JsError (α × TokState)) := by
  constructor
  · intro e' he'
    cases he'
    exact h
  · intro a st' h'
    cases h'

theorem PSpec_ok {α : Type} {st' : TokState} {a : α} (h : st'.tokenized = true) :
    PSpec (.ok (a, st') : Except JsError (α × TokState)) := by
  constructor
  · intro e he
    cases he
  · intro b st₂ hb
    obtain ⟨_, h2⟩ := ok_pair_inj hb
    rw [← h2]
    exact h

theorem acceptKeyword_pspec (kw : String) {st : TokState}
    (htk : st.tokenized = true) : PSpec (acceptKeyword kw st) := by
  unfold acceptKeyword
  obtain ⟨p, hp⟩ := peek_ok htk 0
  rw [hp, okBind]
  by_cases hk : p.type = .keyword
  · rw [if_pos hk]
    obtain ⟨t, st', hn, htk', _, _⟩ := next_ok htk
    rw [hn, okBind]
    exact PSpec_ok htk'
  · rw [if_neg hk]
    exact PSpec_ok htk

theorem expectKeyword_pspec (kw : String) {st : TokState}
    (htk : st.tokenized = true) : PSpec (expectKeyword kw st) := by
  unfold expectKeyword
  cases ha : acceptKeyword kw st with
  | error e =>
    rw [errBind]
    exact PSpec_error ((acceptKeyword_pspec kw htk).1 e ha)
  | ok p =>
    rw [okBind]
    obtain ⟨t?, st'⟩ := p
    have htk' : st'.tokenized = true := (acceptKeyword_pspec kw htk).2 t? st' ha
    simp only []
    cases t? with
    | none =>
      obtain ⟨p2, hp2⟩ := peek_ok htk' 0
      rw [hp2, okBind]
      exact PSpec_error (Or.inl ⟨_, rfl⟩)
    | some t => exact PSpec_ok htk'

theorem expectComment_pspec {st : TokState} (htk : st.tokenized = true) :
    PSpec (expectComment st) := by
  unfold expectComment
  obtain ⟨t, st', hn, htk', _, _⟩ := next_ok htk
  rw [hn, okBind]
  simp only []
  by_cases hc : t.type = .comment
  · rw [if_pos hc]
    obtain ⟨t2, st2, hn2, htk2, _, _⟩ := next_ok htk'
    rw [hn2, okBind]
    simp only []
    cases hat : assertType t2 .eof none with
    | error e => rw [errBind]; exact PSpec_error (assertType_err hat)
    | ok u => cases u; rw [okUnit_bind]; exact PSpec_ok htk2
  · rw [if_neg hc]
    cases hat : assertType t .eof none with
    | error e => rw [errBind]; exact PSpec_error (assertType_err hat)
    | ok u => cases u; rw [okUnit_bind]; exact PSpec_ok htk'

theorem expectOperation_pspec (op : String) {st : TokState}
    (htk : st.tokenized = true) : PSpec (expectOperation op st) := by
  unfold expectOperation
  obtain ⟨t, st', hn, htk', _, _⟩ := next_ok htk
  rw [hn, okBind]
  simp only []
  cases hat : assertType t .operation none with
  | error e => rw [errBind]; exact PSpec_error (assertType_err hat)
  | ok u =>
    cases u
    rw [okUnit_bind]
    by_cases hop : t.lexeme ≠ .str op
    · rw [if_pos hop]
      exact PSpec_error (Or.inl ⟨_, rfl⟩)
    · rw [if_neg hop]
      exact PSpec_ok htk'

theorem expectExpr_pspec {st : TokState} (htk : st.tokenized = true) :
    PSpec (expectExpr st) := by
  obtain ⟨herr, hok⟩ := expectExpr_spec htk
  constructor
  · exact herr
  · intro a st' h'
    exact (hok a st' h').2.2.2.1

theorem acceptLineMod_pspec {st : TokState} (htk : st.tokenized = true) :
    PSpec (acceptLineMod st) := by
  unfold acceptLineMod
  obtain ⟨p, hp⟩ := peek_ok htk 0
  rw [hp, okBind]
  by_cases hl : p.type = .linemod
  · rw [if_pos hl]
    obtain ⟨t, st', hn, htk', _, _⟩ := next_ok htk
    rw [hn, okBind]
    exact PSpec_ok htk'
  · rw [if_neg hl]
    exact PSpec_ok htk

theorem expectLineMod_pspec {st : TokState} (htk : st.tokenized = true) :
    PSpec (expectLineMod st) := by
  unfold expectLineMod
  cases ha : acceptLineMod st with
  | error e =>
    rw [errBind]
    exact PSpec_error ((acceptLineMod_pspec htk).1 e ha)
  | ok p =>
    rw [okBind]
    obtain ⟨b, st'⟩ := p
    have htk' : st'.tokenized = true := (acceptLineMod_pspec htk).2 b st' ha
    simp only []
    cases b with
    | true => exact PSpec_ok htk'
    | false => exact PSpec_error (Or.inl ⟨_, rfl⟩)

theorem acceptSubscript_pspec {st : TokState} (htk : st.tokenized = true) :
    PSpec (acceptSubscript st) := by
  unfold acceptSubscript
  obtain ⟨p, hp⟩ := peek_ok htk 0
  rw [hp, okBind]
  by_cases hl : p.lexeme ≠ .str "["
  · rw [if_pos hl]
    exact PSpec_ok htk
  · rw [if_neg hl]
    obtain ⟨t1, st1, hn1, htk1, _, _⟩ := next_ok htk
    rw [hn1, okBind]
    simp only []
    cases hat : assertType t1 .operation (some (.str "[")) with
    | error e => rw [errBind]; exact PSpec_error (assertType_err hat)
    | ok u =>
      cases u
      rw [okUnit_bind]
      cases hex : expectExpr st1 with
      | error e =>
        rw [errBind]
        exact PSpec_error ((expectExpr_pspec htk1).1 e hex)
      | ok p2 =>
        rw [okBind]
        obtain ⟨ex, st2⟩ := p2
        have htk2 : st2.tokenized = true := (expectExpr_pspec htk1).2 ex st2 hex
        simp only []
        obtain ⟨t3, st3, hn3, htk3, _, _⟩ := next_ok htk2
        rw [hn3, okBind]
        simp only []
        cases hat2 : assertType t3 .operation (some (.str "]")) with
        | error e => rw [errBind]; exact PSpec_error (assertType_err hat2)
        | ok u2 =>
          cases u2
          rw [okUnit_bind]
          exact PSpec_ok htk3

theorem expectVariable_pspec (lineno : Nat) {st : TokState}
    (htk : st.tokenized = true) : PSpec (expectVariable lineno st) := by
  unfold expectVariable
  obtain ⟨t, st', hn, htk', _, _⟩ := next_ok htk
  rw [hn, okBind]
  simp only []
  cases hat : assertType t .var none with
  | error e => rw [errBind]; exact PSpec_error (assertType_err hat)
  | ok u =>
    cases u
    rw [okUnit_bind]
    cases hs : acceptSubscript st' with
    | error e =>
      rw [errBind]
      exact PSpec_error ((acceptSubscript_pspec htk').1 e hs)
    | ok p =>
      rw [okBind]
      obtain ⟨sub, st2⟩ := p
      have htk2 : st2.tokenized = true := (acceptSubscript_pspec htk').2 sub st2 hs
      exact PSpec_ok htk2

theorem PSpec_bind2 {α β : Type} {m : Except JsError (α × TokState)}
    (hm : PSpec m) {f : α × TokState → Except JsError (β × TokState)}
    (hf : ∀ a st', st'.tokenized = true → PSpec (f (a, st'))) :
    PSpec (m >>= f) := by
  cases m with
  | error e =>
    rw [errBind]
    exact PSpec_error (hm.1 e rfl)
  | ok p =>
    rw [okBind]
    obtain ⟨a, st'⟩ := p
    exact hf a st' (hm.2 a st' rfl)

/-- Every error `parse` raises from a tokenized cursor is a message-only
`Error` or `TypeError`: unlike the tokenizer, the statement parser never
attaches the line number to an error. -/
theorem parse_pspec : ∀ {fuel : Nat} (lineno : Nat) {st : TokState},
    st.tokenized = true → PSpec (parse fuel lineno st) := by
  intro fuel
  induction fuel with
  | zero =>
    intro lineno st _
    exact PSpec_error (Or.inl ⟨_, rfl⟩)
  | succ fuel ih =>
    intro lineno st htk
    rw [parse]
    obtain ⟨top, st1, hn, htk1, _, _⟩ := next_ok htk
    rw [hn, okBind]
    simp only []
    cases hat : assertType top .keyword none with
    | error e =>
      rw [errBind]
      exact PSpec_error (assertType_err hat)
    | ok u =>
      cases u
      rw [okUnit_bind]
      by_cases h0 : top.lexeme = .str "PRINT"
      · rw [if_pos h0]
        refine PSpec_bind2 (expectExpr_pspec htk1) ?_
        intro a st2 htk2
        simp only []
        refine PSpec_bind2 (acceptLineMod_pspec htk2) ?_
        intro b st3 htk3
        exact PSpec_ok htk3
      · rw [if_neg h0]
        by_cases h1 : top.lexeme = .str "LET"
        · rw [if_pos h1]
          refine PSpec_bind2 (expectVariable_pspec lineno htk1) ?_
          intro v st2 htk2
          simp only []
          refine PSpec_bind2 (expectOperation_pspec "=" htk2) ?_
          intro o st3 htk3
          simp only []
          refine PSpec_bind2 (expectExpr_pspec htk3) ?_
          intro ex st4 htk4
          exact PSpec_ok htk4
        · rw [if_neg h1]
          by_cases h2 : top.lexeme = .str "REM"
          · rw [if_pos h2]
            refine PSpec_bind2 (expectComment_pspec htk1) ?_
            intro c2 st2 htk2
            exact PSpec_ok htk2
          · rw [if_neg h2]
            by_cases h3 : top.lexeme = .str "PAUSE"
            · rw [if_pos h3]
              refine PSpec_bind2 (expectExpr_pspec htk1) ?_
              intro a st2 htk2
              exact PSpec_ok htk2
            · rw [if_neg h3]
              by_cases h4 : top.lexeme = .str "INPUT"
              · rw [if_pos h4]
                refine PSpec_bind2 (expectExpr_pspec htk1) ?_
                intro a st2 htk2
                simp only []
                refine PSpec_bind2 (expectLineMod_pspec htk2) ?_
                intro b st3 htk3
                simp only []
                refine PSpec_bind2 (expectVariable_pspec lineno htk3) ?_
                intro v st4 htk4
                exact PSpec_ok htk4
              · rw [if_neg h4]
                by_cases h5 : top.lexeme = .str "FOR"
                · rw [if_pos h5]
                  refine PSpec_bind2 (expectVariable_pspec lineno htk1) ?_
                  intro v st2 htk2
                  simp only []
                  refine PSpec_bind2 (expectOperation_pspec "=" htk2) ?_
                  intro o st3 htk3
                  simp only []
                  refine PSpec_bind2 (expectExpr_pspec htk3) ?_
                  intro frm st4 htk4
                  simp only []
                  refine PSpec_bind2 (expectKeyword_pspec "TO" htk4) ?_
                  intro kw st5 htk5
                  simp only []
                  refine PSpec_bind2 (expectExpr_pspec htk5) ?_
                  intro to2 st6 htk6
                  simp only []
                  refine PSpec_bind2 (acceptKeyword_pspec "STEP" htk6) ?_
                  intro stepTok st7 htk7
                  simp only []
                  cases stepTok with
                  | some t =>
                    refine PSpec_bind2 (expectExpr_pspec htk7) ?_
                    intro stepE st8 htk8
                    exact PSpec_ok htk8
                  | none => exact PSpec_ok htk7
                · rw [if_neg h5]
                  by_cases h6 : top.lexeme = .str "NEXT"
                  · rw [if_pos h6]
                    refine PSpec_bind2 (expectVariable_pspec lineno htk1) ?_
                    intro v st2 htk2
                    exact PSpec_ok htk2
                  · rw [if_neg h6]
                    by_cases h7 : top.lexeme = .str "GOTO"
                    · rw [if_pos h7]
                      refine PSpec_bind2 (expectExpr_pspec htk1) ?_
                      intro a st2 htk2
                      exact PSpec_ok htk2
                    · rw [if_neg h7]
                      by_cases h8 : top.lexeme = .str "END"
                      · rw [if_pos h8]
                        exact PSpec_ok htk1
                      · rw [if_neg h8]
                        by_cases h9 : top.lexeme = .str "IF"
                        · rw [if_pos h9]
                          refine PSpec_bind2 (expectExpr_pspec htk1) ?_
                          intro cond st2 htk2
                          simp only []
                          refine PSpec_bind2 (expectKeyword_pspec "THEN" htk2) ?_
                          intro kw st3 htk3
                          simp only []
                          refine PSpec_bind2 (ih lineno htk3) ?_
                          intro thenN st4 htk4
                          simp only []
                          refine PSpec_bind2 (acceptKeyword_pspec "else" htk4) ?_
                          intro elseTok st5 htk5
                          simp only []
                          cases elseTok with
                          | some t =>
                            refine PSpec_bind2 (ih lineno htk5) ?_
                            intro elseN st6 htk6
                            exact PSpec_ok htk6
                          | none => exact PSpec_ok htk5
                        · rw [if_neg h9]
                          exact PSpec_error (Or.inl ⟨_, rfl⟩)

theorem scanTokens_err_iff {lineno : Nat} {s : List Char} :
    (∃ e, scanTokens lineno s = .error e) ↔
    ∃ r, Reaches s r ∧ r ≠ [] ∧ eatAny r = none :=
  scanAux_err_iff (Nat.le_refl _)

theorem scanTokens_error_form {lineno : Nat} {s : List Char} {e : JsError}
    (h : scanTokens lineno s = .error e) : ∃ msg, e = .parseError lineno msg :=
  scanAux_error_form h

theorem not_space_of_alnum {c : Char} (h : (isAlpha c || isDigit c) = true) :
    isSpace c = false := by
  cases hs : isSpace c
  · rfl
  · exfalso
    have h7 : c = ' ' ∨ c = '\t' ∨ c = '\n' ∨ c = '\x0d' ∨
        c = Char.ofNat 11 ∨ c = Char.ofNat 12 ∨ c = Char.ofNat 160 := by
      unfold isSpace at hs
      simp only [Bool.or_eq_true, beq_iff_eq] at hs
      tauto
    rcases h7 with h1 | h1 | h1 | h1 | h1 | h1 | h1 <;> subst h1 <;>
      exact absurd h (by decide)

/-! ## Claim theorems -/

/-- Claim C1: the claim states that `expectExpr` tracks bracket depth
precisely, incrementing on every opener and decrementing on every closer,
so that `LET A = F(B[1], C)` parses as one call to `F` with two arguments.
The code cannot do this: `brackets` is declared `const`, so consuming the
`(` reaches `brackets++`, which throws
`TypeError: Assignment to constant variable.` (and independently, the
decrement branch tests `']'` twice and never `')'`). This theorem evaluates
the parser at the failing input and shows the thrown TypeError. -/
theorem c1_eval : parseLine "10 LET A = F(B[1], C)" =
    .error (.typeError "Assignment to constant variable.") := rfl

/-- Claim C2: the claim states that a FOR line whose keyword after the
first expression is anything other than `TO` fails with a parse error. The
code accepts it: `acceptKeyword(keyword)` never reads its argument, so
`expectKeyword('TO')` is satisfied by any keyword token, and
`10 FOR I = 1 GOSUB 2` parses into a FOR node with `to = 2`. The second
conjunct exhibits the ignored argument: `acceptKeyword` is the same
function whatever keyword is requested. -/
theorem c2_eval :
    parseLine "10 FOR I = 1 GOSUB 2" =
      .ok (.FOR 10 ⟨10, .str "I", none⟩ ⟨[⟨.number, .str "1"⟩]⟩
        ⟨[⟨.number, .str "2"⟩]⟩ none) ∧
    ∀ (k₁ k₂ : String) (st : TokState), acceptKeyword k₁ st = acceptKeyword k₂ st :=
  ⟨rfl, fun _ _ _ => rfl⟩

/-- Claim C3 counterexample: a statement-parser error that carries no line
number. Parsing `10 LET 5 = 1` fails in `assertType` with a plain `Error`
holding only the expected-vs-found message; it is not a `ParseError`, so
it has no line-number field. -/
theorem c3_counterexample :
    parseLine "10 LET 5 = 1" =
      .error (.error "Expect token of type variable but got number") ∧
    ¬∃ n msg, (JsError.error "Expect token of type variable but got number") =
      .parseError n msg := by
  refine ⟨rfl, ?_⟩
  rintro ⟨n, msg, h⟩
  exact JsError.noConfusion h

/-- Claim C3 (amended): every error the lexer raises is a `ParseError`
carrying a line-number field and a human-readable message, while every
error the statement parser raises from a tokenized cursor is a plain
`Error` or `TypeError` carrying only a human-readable message and no line
number; no error carries a partially built node (the error type holds only
numbers and strings). -/
theorem c3_errors :
    (∀ (line : String) (e : JsError), tokenize line = .error e →
      ∃ n msg, e = .parseError n msg) ∧
    (∀ (fuel lineno : Nat) (st : TokState) (e : JsError), st.tokenized = true →
      parse fuel lineno st = .error e → msgOnly e) :=
  ⟨fun _ e h => tokenize_error_parseError h,
   fun _ lineno _ e htk h => (parse_pspec lineno htk).1 e h⟩

/-- Claim C3 witness: the amended theorem applied at concrete inputs — a
lexer failure (no line number on the line) yields a `ParseError`, and a
parser failure (`10` with no statement) yields a message-only `Error`. -/
theorem c3_witness :
    (∃ n msg, (JsError.parseError (-1) "Every line must start with a line number") =
      .parseError n msg) ∧
    msgOnly (.error "Expect token of type keyword but got eof") :=
  ⟨c3_errors.1 "PRINT 1" _ rfl,
   c3_errors.2 2 10 ⟨[⟨.lineno, .num 10⟩], 1, true, 10⟩ _ rfl rfl⟩

/-- Claim C4: an expression operand that consumes zero tokens is always a
parse failure: if the expression scan returns an empty collection,
`expectExpr` raises `Expected expression`; conversely a successful
`expectExpr` always holds a non-empty token slice and has consumed at
least one token, so no statement node ever contains a null or empty
expression. `10 LET A = ` is the claim's concrete instance. -/
theorem c4_empty_expression :
    (∀ st st' : TokState, expectExprLoop (st.tokens.length + 1) st [] = .ok ([], st') →
      expectExpr st = .error (.error "Expected expression")) ∧
    (∀ (st : TokState) (ex : Expr) (st' : TokState), st.tokenized = true →
      expectExpr st = .ok (ex, st') → ex.tokens ≠ [] ∧ st.index < st'.index) ∧
    parseLine "10 LET A = " = .error (.error "Expected expression") := by
  refine ⟨?_, ?_, rfl⟩
  · intro st st' h
    unfold expectExpr
    rw [h, okBind]
    simp
  · intro st ex st' htk h
    obtain ⟨h1, h2, _⟩ := (expectExpr_spec htk).2 ex st' h
    exact ⟨h1, h2⟩

/-- Claim C4 witness: the theorem applied at concrete cursors — an
exhausted cursor yields the `Expected expression` error, and a cursor on a
number token yields a non-empty slice with the cursor advanced. -/
theorem c4_witness :
    expectExpr ⟨[], 0, true, 10⟩ = .error (.error "Expected expression") ∧
    ((exprToJS [⟨.number, .str "1"⟩]).tokens ≠ [] ∧
      (⟨[⟨.number, .str "1"⟩], 0, true, 10⟩ : TokState).index <
      (⟨[⟨.number, .str "1"⟩], 1, true, 10⟩ : TokState).index) :=
  ⟨c4_empty_expression.1 ⟨[], 0, true, 10⟩ ⟨[], 0, true, 10⟩ rfl,
   c4_empty_expression.2.1 ⟨[⟨.number, .str "1"⟩], 0, true, 10⟩
     (exprToJS [⟨.number, .str "1"⟩]) ⟨[⟨.number, .str "1"⟩], 1, true, 10⟩ rfl rfl⟩

/-- Claim C5: whenever the lexer matches the `REM` keyword, the entire
remainder of the line becomes one comment token with no further
tokenization (the scan loop ends immediately), and
`10 REM this is a comment` parses to a REM node whose text is exactly
`this is a comment` — only the whitespace following the keyword trimmed,
embedded keywords and operators untouched. -/
theorem c5_rem :
    (∀ (lineno : Nat) (s : List Char) (n : Nat),
      matchNameCI KEYWORDS s = some ("REM", n) →
      scanTokens lineno s =
        .ok [⟨.keyword, .str "REM"⟩, ⟨.comment, .str (String.mk (s.drop n))⟩]) ∧
    parseLine "10 REM this is a comment" = .ok (.REM 10 "this is a comment") :=
  ⟨fun _ _ _ h => scanTokens_REM h, rfl⟩

/-- Claim C5 witness: the REM rule applied at a concrete statement text. -/
theorem c5_witness :
    scanTokens 10 "REM  hi".data =
      .ok [⟨.keyword, .str "REM"⟩,
           ⟨.comment, .str (String.mk ("REM  hi".data.drop 5))⟩] :=
  c5_rem.1 10 "REM  hi".data 5 rfl

/-- Claim C6: `10 IF A>5 THEN GOTO 100 ELSE PRINT "no"` parses to an IF
node whose then branch is the GOTO node and whose else branch is the PRINT
node produced by recursive calls of the statement production; the same
line without `ELSE` parses to an IF node with an absent (none) else
branch, not an error. -/
theorem c6_if_else :
    parseLine "10 IF A>5 THEN GOTO 100 ELSE PRINT \"no\"" =
      .ok (.IF 10 ⟨[⟨.var, .str "A"⟩, ⟨.operation, .str ">"⟩, ⟨.number, .str "5"⟩]⟩
        (.GOTO 10 ⟨[⟨.number, .str "100"⟩]⟩)
        (some (.PRINT 10 ⟨[⟨.string, .str "\"no\""⟩]⟩ false))) ∧
    parseLine "10 IF A>5 THEN GOTO 100" =
      .ok (.IF 10 ⟨[⟨.var, .str "A"⟩, ⟨.operation, .str ">"⟩, ⟨.number, .str "5"⟩]⟩
        (.GOTO 10 ⟨[⟨.number, .str "100"⟩]⟩) none) :=
  ⟨rfl, rfl⟩

/-- Claim C7: keyword and identifier matching is case-insensitive with
uppercase normalization at lex time: `10 print "hi"` and `10 PRINT "hi"`
tokenize identically (with the keyword stored uppercase); the
name-alternation matcher (keywords, logic words, function names,
constants) and the variable matcher give equal results on inputs equal up
to case; variable lexemes are uppercase-normalized, and every name in the
keyword, logic and constant alternations is already uppercase. -/
theorem c7_case_insensitive :
    tokenize "10 print \"hi\"" = tokenize "10 PRINT \"hi\"" ∧
    tokenize "10 PRINT \"hi\"" =
      .ok (10, [⟨.lineno, .num 10⟩, ⟨.keyword, .str "PRINT"⟩,
                ⟨.string, .str "\"hi\""⟩]) ∧
    (∀ (names : List String) (s₁ s₂ : List Char), s₁.map upper = s₂.map upper →
      matchNameCI names s₁ = matchNameCI names s₂) ∧
    (∀ s₁ s₂ : List Char, s₁.map upper = s₂.map upper →
      matchVar s₁ = matchVar s₂) ∧
    (∀ (s : List Char) (k : String) (n : Nat), matchVar s = some (k, n) →
      k.data.map upper = k.data) ∧
    (∀ k ∈ KEYWORDS ++ logicWords ++ CONSTANTS, k.data.map upper = k.data) :=
  ⟨rfl, rfl,
   fun names _ _ h => matchNameCI_congr names h,
   fun _ _ h => matchVar_congr h,
   fun _ _ _ h => matchVar_upper h,
   by decide⟩

/-- Claim C7 witness: the case-insensitivity conjuncts applied at concrete
inputs of both cases. -/
theorem c7_witness :
    matchNameCI KEYWORDS "print 1".data = matchNameCI KEYWORDS "PRINT 1".data ∧
    matchVar "a1x".data = matchVar "A1X".data ∧
    "A1".data.map upper = "A1".data :=
  ⟨c7_case_insensitive.2.2.1 KEYWORDS "print 1".data "PRINT 1".data rfl,
   c7_case_insensitive.2.2.2.1 "a1x".data "A1X".data rfl,
   c7_case_insensitive.2.2.2.2.1 "a1b".data "A1" 2 rfl⟩

/-- Claim C8: `tokenize` fails exactly when the line does not begin with a
numeric line number or when the scan loop reaches a position where no
pattern class matches; a line with no leading line number always fails
with the fixed `ParseError` (line-number field still `-1`) and is never
given a default line number, and every failure on a numbered line carries
that line's number. -/
theorem c8_lex_failure : ∀ line : String,
    (matchLine line.data = none →
      tokenize line =
        .error (.parseError (-1) "Every line must start with a line number")) ∧
    (∀ n cnt, matchLine line.data = some (n, cnt) →
      (((∃ e, tokenize line = .error e) ↔
        ∃ r, Reaches (line.data.drop cnt) r ∧ r ≠ [] ∧ eatAny r = none) ∧
       (∀ e, tokenize line = .error e → ∃ msg, e = .parseError (n : Int) msg))) := by
  intro line
  constructor
  · intro h
    unfold tokenize
    rw [h]
  · intro n cnt h
    constructor
    · unfold tokenize
      rw [h]
      simp only []
      rw [← scanTokens_err_iff]
      cases hs : scanTokens n (line.data.drop cnt) with
      | error e2 => simp
      | ok ts => simp
    · intro e he
      unfold tokenize at he
      rw [h] at he
      simp only [] at he
      split at he
      · simp only [Except.error.injEq] at he
        obtain ⟨msg, hm⟩ := scanTokens_error_form (by assumption)
        exact ⟨msg, by rw [← he, hm]⟩
      · simp at he

/-- Claim C8 witness: the theorem applied at a line with no line number
and at a numbered line whose text contains an unmatchable character. -/
theorem c8_witness :
    tokenize "PRINT 1" =
      .error (.parseError (-1) "Every line must start with a line number") ∧
    ((∃ e, tokenize "10 ?" = .error e) ↔
      ∃ r, Reaches ("10 ?".data.drop 3) r ∧ r ≠ [] ∧ eatAny r = none) :=
  ⟨(c8_lex_failure "PRINT 1").1 rfl,
   ((c8_lex_failure "10 ?").2 10 3 rfl).1⟩

/-- Claim C9: the end-of-input sentinel is idempotent: on any tokenized
cursor at or past the end of the token array, every `peek` returns the
`eof` token, `next` returns the `eof` token without advancing the cursor,
and any number of repeated `next` calls still returns the `eof` token with
the cursor unchanged — never an error. -/
theorem c9_eof_idempotent : ∀ st : TokState, st.tokenized = true →
    st.tokens.length ≤ st.index →
    (∀ n, peek st n = .ok eofTok) ∧
    next st = .ok (eofTok, st) ∧
    (∀ k, nextTimes k st = .ok (eofTok, st)) := by
  intro st htk hb
  have hpeek : ∀ n, peek st n = .ok eofTok := by
    intro n
    unfold peek
    rw [assertTokenized_ok htk, okUnit_bind, if_pos (by omega)]
  have hnext : next st = .ok (eofTok, st) := by
    unfold next
    rw [assertTokenized_ok htk, okUnit_bind, if_pos hb]
  refine ⟨hpeek, hnext, ?_⟩
  intro k
  induction k with
  | zero => exact hnext
  | succ k ih =>
    rw [nextTimes, hnext, okBind]
    exact ih

/-- Claim C9 witness: the theorem applied to the cursor of a tokenized
one-token line sitting at the end of its token array. -/
theorem c9_witness :
    peek ⟨[⟨.lineno, .num 10⟩], 1, true, 10⟩ 0 = .ok eofTok ∧
    nextTimes 5 ⟨[⟨.lineno, .num 10⟩], 1, true, 10⟩ =
      .ok (eofTok, ⟨[⟨.lineno, .num 10⟩], 1, true, 10⟩) := by
  have h := c9_eof_idempotent ⟨[⟨.lineno, .num 10⟩], 1, true, 10⟩ rfl (by decide)
  exact ⟨h.1 0, h.2.2 5⟩

/-- Claim C10 counterexample: at `10 REMX` the text after the line number
begins with the letters of the keyword `REM` immediately followed by the
identifier character `X`, yet the lexer does not continue lexing the
remaining characters separately (which would give a variable token `X`):
it swallows them as a single comment token. -/
theorem c10_counterexample :
    tokenize "10 REMX" =
      .ok (10, [⟨.lineno, .num 10⟩, ⟨.keyword, .str "REM"⟩,
                ⟨.comment, .str "X"⟩]) ∧
    ([⟨.lineno, .num 10⟩, ⟨.keyword, .str "REM"⟩, ⟨.comment, .str "X"⟩]
        : List Token) ≠
      [⟨.lineno, .num 10⟩, ⟨.keyword, .str "REM"⟩, ⟨.var, .str "X"⟩] :=
  ⟨rfl, by decide⟩

/-- Claim C10 (amended): for every keyword other than `REM`, a line whose
text begins with the keyword's letters immediately followed by another
identifier character lexes as the keyword token followed by the remaining
characters lexed separately (`10 PRINTX` gives keyword `PRINT` then
variable `X`), rather than failing or lexing one longer identifier; for
`REM` the remainder instead becomes a single comment token. -/
theorem c10_keyword_no_delimiter :
    (∀ (lineno : Nat) (k : String) (c : Char) (cs : List Char),
      k ∈ KEYWORDS → k ≠ "REM" → (isAlpha c || isDigit c) = true →
      scanTokens lineno (k.data ++ c :: cs) =
        (scanTokens lineno (c :: cs)).map
          (fun r => (⟨.keyword, .str k⟩ : Token) :: r)) ∧
    tokenize "10 PRINTX" =
      .ok (10, [⟨.lineno, .num 10⟩, ⟨.keyword, .str "PRINT"⟩,
                ⟨.var, .str "X"⟩]) := by
  refine ⟨?_, rfl⟩
  intro lineno k c cs hk hrem hc
  exact scanTokens_keyword_split hk hrem (not_space_of_alnum hc)

/-- Claim C10 witness: the amended rule applied to the keyword `PRINT`
followed by the identifier character `X`. -/
theorem c10_witness :
    scanTokens 10 ("PRINT".data ++ 'X' :: []) =
      (scanTokens 10 ['X']).map
        (fun r => (⟨.keyword, .str "PRINT"⟩ : Token) :: r) :=
  c10_keyword_no_delimiter.1 10 "PRINT" 'X' [] (by decide) (by decide) (by decide)

end PgBasic
